import Mathlib

/-!
# Verification of the legate-boost CPU tree builder

A shallow embedding in Lean 4 of `src/models/tree/build_tree.cc`, the CPU
variant of the gradient-boosted decision-tree builder.  `double` values are
modelled as `ℚ` (exact arithmetic), the Legate buffers as total functions,
and the per-level training loop as an explicit state machine.  The task is
modelled for a single shard, so `SumAllReduce` is the identity.

Helper declarations that live in headers not part of the sources
(`build_tree.h`, `cpp_utils.h`) are reconstructed from the specification and
carry a doc comment starting with `Modelled from the spec:`.
-/

namespace LB

/-- `GPair` from the source: an additive pair of a gradient and a hessian.
Componentwise `+`, `-`; the zero element is `(0, 0)`. -/
structure GPair where
  g : ℚ
  h : ℚ
deriving DecidableEq

instance : Zero GPair := ⟨⟨0, 0⟩⟩

instance : Add GPair := ⟨fun a b => ⟨a.g + b.g, a.h + b.h⟩⟩

instance : Neg GPair := ⟨fun a => ⟨-a.g, -a.h⟩⟩

instance : Sub GPair := ⟨fun a b => ⟨a.g - b.g, a.h - b.h⟩⟩

theorem GPair.add_def (a b : GPair) : a + b = ⟨a.g + b.g, a.h + b.h⟩ := rfl

theorem GPair.sub_def (a b : GPair) : a - b = ⟨a.g - b.g, a.h - b.h⟩ := rfl

theorem GPair.neg_def (a : GPair) : -a = ⟨-a.g, -a.h⟩ := rfl

theorem GPair.zero_def : (0 : GPair) = ⟨0, 0⟩ := rfl

instance : AddCommGroup GPair where
  add := (· + ·)
  zero := 0
  neg := Neg.neg
  sub := Sub.sub
  add_assoc a b c := by
    cases a; cases b; cases c
    simp only [GPair.add_def, GPair.mk.injEq]
    exact ⟨add_assoc _ _ _, add_assoc _ _ _⟩
  zero_add a := by
    cases a
    simp only [GPair.add_def, GPair.zero_def, GPair.mk.injEq]
    exact ⟨zero_add _, zero_add _⟩
  add_zero a := by
    cases a
    simp only [GPair.add_def, GPair.zero_def, GPair.mk.injEq]
    exact ⟨add_zero _, add_zero _⟩
  add_comm a b := by
    cases a; cases b
    simp only [GPair.add_def, GPair.mk.injEq]
    exact ⟨add_comm _ _, add_comm _ _⟩
  neg_add_cancel a := by
    cases a
    simp only [GPair.add_def, GPair.neg_def, GPair.zero_def, GPair.mk.injEq]
    exact ⟨neg_add_cancel _, neg_add_cancel _⟩
  sub_eq_add_neg a b := by
    cases a; cases b
    simp only [GPair.add_def, GPair.sub_def, GPair.neg_def, GPair.mk.injEq]
    exact ⟨sub_eq_add_neg _ _, sub_eq_add_neg _ _⟩
  nsmul := nsmulRec
  zsmul := zsmulRec

/-- Modelled from the spec: `BinaryTree::LeftChild(n) = 2n + 1`
(`build_tree.h` is not among the sources; §4.1 of the spec). -/
def BinaryTree.LeftChild (n : ℕ) : ℕ := 2 * n + 1

/-- Modelled from the spec: `BinaryTree::RightChild(n) = 2n + 2`. -/
def BinaryTree.RightChild (n : ℕ) : ℕ := 2 * n + 2

/-- Modelled from the spec: `BinaryTree::Parent(n) = (n - 1) / 2`. -/
def BinaryTree.Parent (n : ℕ) : ℕ := (n - 1) / 2

/-- Modelled from the spec: `BinaryTree::LevelBegin(d) = 2^d - 1`. -/
def BinaryTree.LevelBegin (d : ℕ) : ℕ := 2 ^ d - 1

/-- Modelled from the spec: `BinaryTree::NodesInLevel(d) = 2^d`. -/
def BinaryTree.NodesInLevel (d : ℕ) : ℕ := 2 ^ d

/-- Modelled from the spec: the variants of the child index maps acting on
`int`-valued row positions. -/
def BinaryTree.LeftChildZ (n : ℤ) : ℤ := 2 * n + 1

/-- Modelled from the spec: `RightChild` on `int`-valued row positions. -/
def BinaryTree.RightChildZ (n : ℤ) : ℤ := 2 * n + 2

/-- Modelled from the spec: `eps`, "a small positive constant (e.g. `1e-12`)
guarding division by zero" (declared in a header not among the sources).
Written as a rational in lowest terms; `eps_eq` states the usual form. -/
def eps : ℚ := ⟨1, 1000000000000, by decide, by decide⟩

/-- Modelled from the spec: `CalculateLeafValue(G, H, α) = −G / (H + max(ε, α))`
(declared in a header not among the sources; §4.4.5 of the spec). -/
def CalculateLeafValue (G H alpha : ℚ) : ℚ := -G / (H + max eps alpha)

/-- `SparseSplitProposals<T>` from the source: concatenated sorted-unique
candidate thresholds per feature, in compressed-row form. -/
structure SparseSplitProposals where
  split_proposals : List ℚ
  row_pointers : List ℕ
  num_features : ℕ
  histogram_size : ℕ

/-- The `row_pointers` entry for index `j` (reads of the backing buffer). -/
def SparseSplitProposals.rowPtr (sp : SparseSplitProposals) (j : ℕ) : ℕ :=
  sp.row_pointers.getD j 0

/-- Modelled from the spec: `FeatureRange(f) → [begin, end)`; feature `f`
occupies `[row_pointers[f], row_pointers[f+1])`. -/
def SparseSplitProposals.FeatureRange (sp : SparseSplitProposals) (f : ℕ) : ℕ × ℕ :=
  (sp.rowPtr f, sp.rowPtr (f + 1))

/-- Modelled from the spec: `FindBin(x, f)` returns the smallest bin index
`b ∈ [begin, end)` whose threshold satisfies `split_proposals[b] ≥ x`, or the
sentinel `NOT_FOUND` (here `none`) if `x` exceeds all thresholds of `f`. -/
def SparseSplitProposals.FindBin (sp : SparseSplitProposals) (x : ℚ) (f : ℕ) : Option ℕ :=
  (List.range' (sp.FeatureRange f).1 ((sp.FeatureRange f).2 - (sp.FeatureRange f).1)).find?
    (fun b => decide (x ≤ sp.split_proposals.getD b 0))

/-- Well-formedness of the compressed-row structure: the backing
`row_pointers` buffer has `num_features + 1` entries and is non-decreasing. -/
def SparseSplitProposals.WF (sp : SparseSplitProposals) : Prop :=
  sp.row_pointers.length = sp.num_features + 1 ∧
    ∀ j, j < sp.num_features → sp.rowPtr j ≤ sp.rowPtr (j + 1)

instance (sp : SparseSplitProposals) : Decidable sp.WF := by
  unfold SparseSplitProposals.WF
  infer_instance

/-- The mutable `Tree` of the source: dense node-indexed arrays, modelled as
total functions over node indices.  `num_outputs` is the width of the
per-output matrices. -/
structure Tree where
  feature : ℕ → ℤ
  split_value : ℕ → ℚ
  gain : ℕ → ℚ
  leaf_value : ℕ → ℕ → ℚ
  gradient : ℕ → ℕ → ℚ
  hessian : ℕ → ℕ → ℚ
  num_outputs : ℕ

/-- The `Tree` constructor: `feature` is filled with `-1`, all numeric
buffers with zeros. -/
def Tree.init (num_outputs : ℕ) : Tree where
  feature := fun _ => -1
  split_value := fun _ => 0
  gain := fun _ => 0
  leaf_value := fun _ _ => 0
  gradient := fun _ _ => 0
  hessian := fun _ _ => 0
  num_outputs := num_outputs

/-- `Tree::AddSplit`: records the split on `node_id` and writes the per-output
leaf value, gradient and hessian of both children (outputs `< num_outputs`,
matching the sizes of the vectors passed in the source). -/
def Tree.AddSplit (t : Tree) (node_id : ℕ) (feature_id : ℤ) (split_value : ℚ)
    (left_leaf_value right_leaf_value : ℕ → ℚ) (gain : ℚ)
    (gradient_left gradient_right hessian_left hessian_right : ℕ → ℚ) : Tree where
  feature := fun n => if n = node_id then feature_id else t.feature n
  split_value := fun n => if n = node_id then split_value else t.split_value n
  gain := fun n => if n = node_id then gain else t.gain n
  leaf_value := fun n o =>
    if o < t.num_outputs then
      if n = BinaryTree.LeftChild node_id then left_leaf_value o
      else if n = BinaryTree.RightChild node_id then right_leaf_value o
      else t.leaf_value n o
    else t.leaf_value n o
  gradient := fun n o =>
    if o < t.num_outputs then
      if n = BinaryTree.LeftChild node_id then gradient_left o
      else if n = BinaryTree.RightChild node_id then gradient_right o
      else t.gradient n o
    else t.gradient n o
  hessian := fun n o =>
    if o < t.num_outputs then
      if n = BinaryTree.LeftChild node_id then hessian_left o
      else if n = BinaryTree.RightChild node_id then hessian_right o
      else t.hessian n o
    else t.hessian n o
  num_outputs := t.num_outputs

/-- `Tree::IsLeaf(node_id)`: a node is a leaf iff its feature is `-1`. -/
def Tree.IsLeaf (t : Tree) (node_id : ℕ) : Prop := t.feature node_id = -1

instance (t : Tree) (n : ℕ) : Decidable (t.IsLeaf n) := by
  unfold Tree.IsLeaf
  infer_instance

/-- A single node's slice of the histogram buffer: `bin → output → GPair`. -/
abbrev HistRow : Type := ℕ → ℕ → GPair

/-- The full histogram buffer: `node → bin → output → GPair`. -/
abbrev Hist : Type := ℕ → ℕ → ℕ → GPair

/-- The inner loops of `TreeBuilder::ComputeHistogram` for one local row `i`:
for every feature `j < num_features`, find the bin of `X[i, j, 0]` and, when
found, add `(g[i, 0, k], h[i, 0, k])` into that bin for every output
`k < num_outputs`. -/
def rowAccum (sp : SparseSplitProposals) (nf no : ℕ) (X g h : ℕ → ℕ → ℚ) (i : ℕ)
    (hr : HistRow) : HistRow :=
  (List.range nf).foldl
    (fun hr j =>
      match sp.FindBin (X i j) j with
      | none => hr
      | some bin_idx =>
        fun b k => if b = bin_idx ∧ k < no then hr b k + ⟨g i k, h i k⟩ else hr b k)
    hr

/-- The histogram a node accumulates from a given list of its rows: the raw
(unscanned) per-node histogram of `ComputeHistogram`, starting from the
zero-initialized buffer. -/
def nodeHistogram (sp : SparseSplitProposals) (nf no : ℕ) (X g h : ℕ → ℕ → ℚ)
    (rows : List ℕ) : HistRow :=
  rows.foldl (fun hr i => rowAccum sp nf no X g h i hr) (fun _ _ => 0)

/-- Modelled from the spec: `SelectHistogramNode(parent, hessian)` from
`build_tree.h` (not among the sources): the child with the smaller hessian
(output 0 as canonical) is built directly, the sibling is derived by
subtraction. Returns `(histogram_node_idx, subtract_node_idx)`. -/
def SelectHistogramNode (parent : ℕ) (hessian : ℕ → ℕ → ℚ) : ℕ × ℕ :=
  if hessian (BinaryTree.LeftChild parent) 0 < hessian (BinaryTree.RightChild parent) 0 then
    (BinaryTree.LeftChild parent, BinaryTree.RightChild parent)
  else
    (BinaryTree.RightChild parent, BinaryTree.LeftChild parent)

/-- Modelled from the spec: `ComputeHistogramBin(position, depth, hessian)`
from `build_tree.h` (not among the sources): true iff `depth = 0` or
`position` is the directly-built child of its parent. -/
def ComputeHistogramBin (position : ℤ) (depth : ℕ) (hessian : ℕ → ℕ → ℚ) : Bool :=
  if depth = 0 then true
  else decide ((SelectHistogramNode (BinaryTree.Parent position.toNat) hessian).1 = position.toNat)

/-- The row loop of `TreeBuilder::ComputeHistogram`: every local row whose
position is non-negative and selected by `ComputeHistogramBin` contributes to
its node's slice of the buffer.  (Single shard: the subsequent `SumAllReduce`
is the identity; the prefix scan is applied separately, as in the source.) -/
def computeHistogram (sp : SparseSplitProposals) (nr nf no : ℕ) (X g h : ℕ → ℕ → ℚ)
    (depth : ℕ) (tree : Tree) (positions : ℕ → ℤ) (hist : Hist) : Hist :=
  (List.range nr).foldl
    (fun hist i =>
      let position := positions i
      if position < 0 ∨ ¬ComputeHistogramBin position depth tree.hessian then hist
      else
        let p := position.toNat
        let row := rowAccum sp nf no X g h i (fun b k => hist p b k)
        fun n b k => if n = p then row b k else hist n b k)
    hist

/-- The loop body of `scan_node_histogram` for output `o`: fold state is the
running `GPair` sum together with the histogram row; visiting bin `b` adds the
bin into the running sum and writes the sum back into the bin. -/
def scanStep (o : ℕ) (acc : GPair × HistRow) (b : ℕ) : GPair × HistRow :=
  let sum := acc.1 + acc.2 b o
  (sum, fun b' o' => if b' = b ∧ o' = o then sum else acc.2 b' o')

/-- The per-(feature, output) inner loop of `scan_node_histogram`: a running
`GPair` sum replaces each bin of `[fb, fb + len)` at output `o` with its
left-to-right inclusive prefix sum. -/
def scanFeatureOutput (fb len o : ℕ) (row : HistRow) : HistRow :=
  ((List.range' fb len).foldl (scanStep o) (0, row)).2

/-- The per-feature loops of `scan_node_histogram`: one scanning pass per
output. -/
def scanFeature (fb len no : ℕ) (row : HistRow) : HistRow :=
  (List.range no).foldl (fun row o => scanFeatureOutput fb len o row) row

/-- `scan_node_histogram` from `TreeBuilder::Scan`: prefix-scan every
feature's bin range of a single node's histogram slice. -/
def scanNodeRow (sp : SparseSplitProposals) (nf no : ℕ) (row : HistRow) : HistRow :=
  (List.range nf).foldl
    (fun row f =>
      scanFeature (sp.FeatureRange f).1 ((sp.FeatureRange f).2 - (sp.FeatureRange f).1) no row)
    row

/-- Replace the slice of node `n` in the buffer by `f` applied to it. -/
def applyAtNode (hist : Hist) (n : ℕ) (f : HistRow → HistRow) : Hist :=
  let row := f (fun b k => hist n b k)
  fun m b k => if m = n then row b k else hist m b k

/-- Whether bin `b` lies in the range of some feature `f < nf`. -/
def inAnyRange (sp : SparseSplitProposals) (nf b : ℕ) : Bool :=
  (List.range nf).any
    (fun f => decide ((sp.FeatureRange f).1 ≤ b) && decide (b < (sp.FeatureRange f).2))

/-- `subtract_node_histogram` from `TreeBuilder::Scan`: over every feature's
bin range and every output, the sibling's entry becomes
`parent_sum - scanned_sum`. -/
def subtractNodeAt (sp : SparseSplitProposals) (nf no : ℕ) (hist : Hist)
    (subtract_node_idx scanned_node_idx parent_node_idx : ℕ) : Hist :=
  fun m b o =>
    if m = subtract_node_idx ∧ inAnyRange sp nf b ∧ o < no then
      hist parent_node_idx b o - hist scanned_node_idx b o
    else hist m b o

/-- `TreeBuilder::Scan`: at depth 0 only node 0 is scanned; at depth ≥ 1,
for each parent of the previous level, the directly-built child is scanned and
the sibling is derived by subtraction from the parent. -/
def Scan (sp : SparseSplitProposals) (nf no : ℕ) (depth : ℕ) (tree : Tree) (hist : Hist) :
    Hist :=
  if depth = 0 then applyAtNode hist 0 (scanNodeRow sp nf no)
  else
    (List.range' (BinaryTree.LevelBegin (depth - 1)) (BinaryTree.NodesInLevel (depth - 1))).foldl
      (fun hist parent_id =>
        let sel := SelectHistogramNode parent_id tree.hessian
        let hist1 := applyAtNode hist sel.1 (scanNodeRow sp nf no)
        subtractNodeAt sp nf no hist1 sel.2 sel.1 parent_id)
      hist

/-- The candidate gain of `TreeBuilder::PerformBestSplit` for `(node_id,
bin_idx)`: accumulated over the outputs, with `(G_L, H_L)` read from the
(scanned) histogram buffer, `(G, H)` from the node's totals, and
`reg = max(eps, alpha)`. -/
def candidateGain (hist : Hist) (tree : Tree) (no : ℕ) (alpha : ℚ)
    (node_id bin_idx : ℕ) : ℚ :=
  (List.range no).foldl
    (fun gain o =>
      let G_L := (hist node_id bin_idx o).g
      let H_L := (hist node_id bin_idx o).h
      let G := tree.gradient node_id o
      let H := tree.hessian node_id o
      let G_R := G - G_L
      let H_R := H - H_L
      let reg := max eps alpha
      gain + 1 / 2 * (G_L * G_L / (H_L + reg) + G_R * G_R / (H_R + reg) - G * G / (H + reg)))
    0

/-- The `(feature, bin)` pairs enumerated by the two nested candidate loops of
`PerformBestSplit`: features in increasing order, and within feature `f` the
bins of `FeatureRange(f)` in increasing order. -/
def candList (sp : SparseSplitProposals) (nf : ℕ) : List (ℕ × ℕ) :=
  (List.range nf).flatMap
    (fun f =>
      (List.range' (sp.FeatureRange f).1 ((sp.FeatureRange f).2 - (sp.FeatureRange f).1)).map
        (fun b => (f, b)))

/-- The best-split search of `PerformBestSplit` for one node: starting from
`best_gain = 0`, `best_feature = -1`, `best_bin = -1`, the candidate is
replaced exactly when its gain is strictly greater than the current best. -/
def bestSplit (sp : SparseSplitProposals) (nf no : ℕ) (alpha : ℚ) (hist : Hist)
    (tree : Tree) (node_id : ℕ) : ℚ × ℤ × ℤ :=
  (candList sp nf).foldl
    (fun best c =>
      if candidateGain hist tree no alpha node_id c.2 > best.1 then
        (candidateGain hist tree no alpha node_id c.2, (c.1 : ℤ), (c.2 : ℤ))
      else best)
    (0, -1, -1)

/-- The per-node body of `TreeBuilder::PerformBestSplit`: if the best gain
exceeds `eps` and both children have positive hessian (output 0), the split is
applied through `Tree::AddSplit`; otherwise the tree is left untouched. -/
def performBestSplitNode (sp : SparseSplitProposals) (nf no : ℕ) (alpha : ℚ) (hist : Hist)
    (tree : Tree) (node_id : ℕ) : Tree :=
  let best := bestSplit sp nf no alpha hist tree node_id
  let best_gain := best.1
  let best_feature := best.2.1
  let best_bin := best.2.2
  if best_gain > eps then
    let bb := best_bin.toNat
    let left_leaf := fun o => CalculateLeafValue (hist node_id bb o).g (hist node_id bb o).h alpha
    let right_leaf := fun o =>
      CalculateLeafValue (tree.gradient node_id o - (hist node_id bb o).g)
        (tree.hessian node_id o - (hist node_id bb o).h) alpha
    let gradient_left := fun o => (hist node_id bb o).g
    let gradient_right := fun o => tree.gradient node_id o - (hist node_id bb o).g
    let hessian_left := fun o => (hist node_id bb o).h
    let hessian_right := fun o => tree.hessian node_id o - (hist node_id bb o).h
    if hessian_left 0 ≤ 0 ∨ hessian_right 0 ≤ 0 then tree
    else
      tree.AddSplit node_id best_feature (sp.split_proposals.getD bb 0) left_leaf right_leaf
        best_gain gradient_left gradient_right hessian_left hessian_right
  else tree

/-- `TreeBuilder::PerformBestSplit`: the per-node body applied to every node
of the current level, `[LevelBegin(depth), LevelBegin(depth + 1))`. -/
def performBestSplit (sp : SparseSplitProposals) (nf no : ℕ) (alpha : ℚ) (depth : ℕ)
    (hist : Hist) (tree : Tree) : Tree :=
  (List.range' (BinaryTree.LevelBegin depth)
      (BinaryTree.LevelBegin (depth + 1) - BinaryTree.LevelBegin depth)).foldl
    (performBestSplitNode sp nf no alpha hist) tree

/-- `TreeBuilder::UpdatePositions`: a no-op at depth 0; otherwise every local
row whose position is negative or a leaf becomes inactive (`-1`), and any
other row descends to the left child when `X[i, feature[p], 0] ≤
split_value[p]` and to the right child otherwise. -/
def updatePositions (nr : ℕ) (depth : ℕ) (tree : Tree) (X : ℕ → ℕ → ℚ)
    (positions : ℕ → ℤ) : ℕ → ℤ :=
  if depth = 0 then positions
  else
    fun i =>
      if nr ≤ i then positions i
      else
        let pos := positions i
        if pos < 0 ∨ tree.IsLeaf pos.toNat then -1
        else
          let x := X i (tree.feature pos.toNat).toNat
          if x ≤ tree.split_value pos.toNat then BinaryTree.LeftChildZ pos
          else BinaryTree.RightChildZ pos

/-- `TreeBuilder::InitialiseRoot`: sum `(g, h)` over all local rows per output
(single shard: the all-reduce is the identity) and write the root's leaf
value, gradient and hessian. -/
def initialiseRoot (nr no : ℕ) (g h : ℕ → ℕ → ℚ) (alpha : ℚ) (tree : Tree) : Tree :=
  let base_sums : ℕ → GPair := fun j =>
    (List.range nr).foldl (fun s i => s + ⟨g i j, h i j⟩) 0
  { tree with
    leaf_value := fun n o =>
      if n = 0 ∧ o < no then CalculateLeafValue (base_sums o).g (base_sums o).h alpha
      else tree.leaf_value n o
    gradient := fun n o => if n = 0 ∧ o < no then (base_sums o).g else tree.gradient n o
    hessian := fun n o => if n = 0 ∧ o < no then (base_sums o).h else tree.hessian n o }

/-- The inputs of one `build_tree` invocation, after the store geometry has
been decoded: local row count, feature count, output count, depth bound,
regularizer, the accessors of `X`, `g`, `h` (locally indexed), and the split
proposals produced by `SelectSplitSamples`. -/
structure Params where
  num_rows : ℕ
  num_features : ℕ
  num_outputs : ℕ
  max_depth : ℕ
  alpha : ℚ
  X : ℕ → ℕ → ℚ
  g : ℕ → ℕ → ℚ
  h : ℕ → ℕ → ℚ
  sp : SparseSplitProposals

/-- The mutable state of `build_tree_fn::operator()`: the tree under
construction, the row positions of the `TreeBuilder`, and its histogram
buffer. -/
structure BState where
  tree : Tree
  positions : ℕ → ℤ
  hist : Hist

/-- One iteration of the level loop of `build_tree_fn::operator()`:
`UpdatePositions`, `ComputeHistogram` (which ends in `Scan`), then
`PerformBestSplit`. -/
def buildStep (P : Params) (depth : ℕ) (st : BState) : BState :=
  let pos1 := updatePositions P.num_rows depth st.tree P.X st.positions
  let hist1 :=
    computeHistogram P.sp P.num_rows P.num_features P.num_outputs P.X P.g P.h depth st.tree
      pos1 st.hist
  let hist2 := Scan P.sp P.num_features P.num_outputs depth st.tree hist1
  let tree1 := performBestSplit P.sp P.num_features P.num_outputs P.alpha depth hist2 st.tree
  ⟨tree1, pos1, hist2⟩

/-- The state before the level loop: the freshly constructed tree after
`InitialiseRoot`, all positions at the root, and a zero histogram buffer. -/
def initState (P : Params) : BState :=
  ⟨initialiseRoot P.num_rows P.num_outputs P.g P.h P.alpha (Tree.init P.num_outputs),
    fun _ => 0, fun _ _ _ => 0⟩

/-- The state after `depth` iterations of the level loop. -/
def stateAt (P : Params) : ℕ → BState
  | 0 => initState P
  | d + 1 => buildStep P d (stateAt P d)

/-- The tree produced by `build_tree_fn::operator()`: `InitialiseRoot`
followed by `max_depth` iterations of the level loop. -/
def buildTree (P : Params) : Tree := (stateAt P P.max_depth).tree

/-- The positions right after `UpdatePositions(depth)` has run inside
iteration `depth` of the level loop. -/
def posAfterUpdate (P : Params) (depth : ℕ) : ℕ → ℤ :=
  updatePositions P.num_rows depth (stateAt P depth).tree P.X (stateAt P depth).positions

/-- Ordered-set insertion: insert `x` into an increasingly sorted list of
distinct values, keeping it sorted and dropping `x` when already present. -/
def insertSorted (x : ℚ) : List ℚ → List ℚ
  | [] => [x]
  | y :: t => if x < y then x :: y :: t else if x = y then y :: t else y :: insertSorted x t

/-- The `std::set<T>` built per feature by `SelectSplitSamples`, iterated in
order: the distinct values of the list, sorted increasingly. -/
def sortedUnique (l : List ℚ) : List ℚ := l.foldl (fun acc x => insertSorted x acc) []

/-- The per-feature `std::set` of `SelectSplitSamples`: the sorted-unique
sampled values of feature `j` taken from the reduced draft buffer. -/
def featureSamples (split_samples : ℕ) (draft : ℕ → ℕ → ℚ) (j : ℕ) : List ℚ :=
  sortedUnique ((List.range split_samples).map (draft j))

/-- The `row_pointers` value accumulated after the first `j` features of
`SelectSplitSamples`: the total size of their sorted-unique sets. -/
def thresholdOffset (split_samples : ℕ) (draft : ℕ → ℕ → ℚ) (j : ℕ) : ℕ :=
  ((List.range j).map (fun k => (featureSamples split_samples draft k).length)).sum

/-- `SelectSplitSamples` after the sampling exchange: from the reduced draft
buffer (`draft j i` = sampled value `i` of feature `j`), build the per-feature
sorted-unique threshold lists, the growing flat proposals array, and the
`row_pointers` prefix ranges.  The sampled values themselves come from
`std::default_random_engine`, whose sequence is implementation-defined, so the
draft buffer is taken as an input. -/
def SelectSplitSamples (num_features split_samples : ℕ) (draft : ℕ → ℕ → ℚ) :
    SparseSplitProposals :=
  let row_pointers : List ℕ :=
    (List.range (num_features + 1)).map (thresholdOffset split_samples draft)
  let props : List ℚ := (List.range num_features).flatMap (featureSamples split_samples draft)
  ⟨props, row_pointers, num_features, props.length⟩

/-- The `lo`/`hi` bounds of a 3-D store rectangle. -/
structure StoreShape where
  lo0 : ℤ
  lo1 : ℤ
  lo2 : ℤ
  hi0 : ℤ
  hi1 : ℤ
  hi2 : ℤ
deriving DecidableEq

/-- Modelled from the spec: `EXPECT_AXIS_ALIGNED(0, a, b)` from
`cpp_utils.h` (not among the sources): the two stores agree on axis 0. -/
def axisAligned0 (a b : StoreShape) : Prop := a.lo0 = b.lo0 ∧ a.hi0 = b.hi0

/-- Modelled from the spec: `EXPECT_AXIS_ALIGNED(1, a, b)`: the two stores
agree on axis 1. -/
def axisAligned1 (a b : StoreShape) : Prop := a.lo1 = b.lo1 ∧ a.hi1 = b.hi1

instance (a b : StoreShape) : Decidable (axisAligned0 a b) := by
  unfold axisAligned0
  infer_instance

instance (a b : StoreShape) : Decidable (axisAligned1 a b) := by
  unfold axisAligned1
  infer_instance

/-- Everything a `BuildTreeTask` launch carries: the three input stores with
their shapes (accessors locally indexed), whether `X` is dense row-major, the
six scalars, and the reduced draft buffer of `SelectSplitSamples` (the PRNG
sequence behind it is implementation-defined, see `SelectSplitSamples`). -/
structure TaskInput where
  x_dense_row_major : Bool
  X_shape : StoreShape
  g_shape : StoreShape
  h_shape : StoreShape
  X : ℕ → ℕ → ℚ
  g : ℕ → ℕ → ℚ
  h : ℕ → ℕ → ℚ
  draft : ℕ → ℕ → ℚ
  max_depth : ℕ
  max_nodes : ℕ
  alpha : ℚ
  split_samples : ℕ
  seed : ℤ
  dataset_rows : ℤ

/-- The five output stores written by `WriteTreeOutput`. -/
structure TaskOutput where
  leaf_value : List (List ℚ)
  feature : List ℤ
  split_value : List ℚ
  gain : List ℚ
  hessian : List (List ℚ)

/-- `WriteTreeOutput`: serialize the tree into the five output stores, whose
shapes are `(max_nodes)` and `(max_nodes, num_outputs)`. -/
def writeTreeOutput (max_nodes no : ℕ) (t : Tree) : TaskOutput where
  leaf_value := (List.range max_nodes).map (fun n => (List.range no).map (t.leaf_value n))
  feature := (List.range max_nodes).map t.feature
  split_value := (List.range max_nodes).map t.split_value
  gain := (List.range max_nodes).map t.gain
  hessian := (List.range max_nodes).map (fun n => (List.range no).map (t.hessian n))

/-- `build_tree_fn::operator()`: validate the store geometry (aborting with a
diagnostic on violation, modelled as `Except.error`), read the scalars, build
the split proposals and the tree, and write the outputs.  The checks appear
exactly as in the source: dense row-major `X`, axis alignments, and
`g_shape.lo[2] = 0`. -/
def buildTreeTask (inp : TaskInput) : Except String TaskOutput :=
  if ¬inp.x_dense_row_major then Except.error "expected dense row-major store"
  else if ¬axisAligned0 inp.X_shape inp.g_shape then Except.error "expected aligned stores"
  else if ¬axisAligned0 inp.g_shape inp.h_shape then Except.error "expected aligned stores"
  else if ¬axisAligned1 inp.g_shape inp.h_shape then Except.error "expected aligned stores"
  else if ¬(inp.g_shape.lo2 = 0) then Except.error "Expect all outputs to be present"
  else
    let num_features := (inp.X_shape.hi1 - inp.X_shape.lo1 + 1).toNat
    let num_rows := (inp.X_shape.hi0 - inp.X_shape.lo0 + 1).toNat
    let num_outputs := (inp.g_shape.hi2 - inp.g_shape.lo2 + 1).toNat
    let sp := SelectSplitSamples num_features inp.split_samples inp.draft
    let P : Params :=
      ⟨num_rows, num_features, num_outputs, inp.max_depth, inp.alpha, inp.X, inp.g, inp.h, sp⟩
    Except.ok (writeTreeOutput inp.max_nodes num_outputs (buildTree P))

/-- Whether the task ran to completion and produced its outputs. -/
def producesOutput (inp : TaskInput) : Bool :=
  match buildTreeTask inp with
  | Except.ok _ => true
  | Except.error _ => false

/-- The invariant claimed for every produced tree: an internal node records a
gain above `eps` and both its children carry a positive hessian at output 0. -/
def TreeInv (t : Tree) : Prop :=
  ∀ n, t.feature n ≠ -1 →
    eps < t.gain n ∧
      0 < t.hessian (BinaryTree.LeftChild n) 0 ∧ 0 < t.hessian (BinaryTree.RightChild n) 0

/-- Lexicographic order on `(feature, bin)` candidates, strict version. -/
def lexLtPair (a b : ℕ × ℕ) : Prop := a.1 < b.1 ∨ (a.1 = b.1 ∧ a.2 < b.2)

/-- Lexicographic order on `(feature, bin)` candidates, reflexive version. -/
def lexLePair (a b : ℕ × ℕ) : Prop := a.1 < b.1 ∨ (a.1 = b.1 ∧ a.2 ≤ b.2)

/-- A two-bin, one-feature split-proposal structure used as a concrete test
input. -/
def exampleProposals : SparseSplitProposals := ⟨[0, 1], [0, 2], 1, 2⟩

/-- A concrete reduced draft buffer: samples `0` and `1` for every feature. -/
def exampleDraft : ℕ → ℕ → ℚ := fun _ i => if i = 0 then 0 else 1

/-- A concrete histogram buffer in the state `TreeBuilder::Scan` sees at a
subtraction step: node 0 (the parent) holds the scanned histogram of both
children's rows, node 1 (the directly-built child) holds the scanned
histogram of its own rows. -/
def exampleSiblingHist : Hist := fun n b o =>
  if n = 0 then
    scanNodeRow exampleProposals 1 1
      (nodeHistogram exampleProposals 1 1 (fun _ _ => 0) (fun _ _ => 1) (fun _ _ => 1)
        ([0] ++ [1])) b o
  else if n = 1 then
    scanNodeRow exampleProposals 1 1
      (nodeHistogram exampleProposals 1 1 (fun _ _ => 0) (fun _ _ => 1) (fun _ _ => 1)
        [0]) b o
  else 0

/-- A concrete one-row, depth-0 parameter set. -/
def exampleParams0 : Params where
  num_rows := 1
  num_features := 1
  num_outputs := 1
  max_depth := 0
  alpha := 0
  X := fun _ _ => 0
  g := fun _ _ => 1
  h := fun _ _ => 1
  sp := exampleProposals

/-- A concrete one-row, depth-1 parameter set. -/
def exampleParams1 : Params where
  num_rows := 1
  num_features := 1
  num_outputs := 1
  max_depth := 1
  alpha := 0
  X := fun _ _ => 0
  g := fun _ _ => 1
  h := fun _ _ => 1
  sp := exampleProposals

/-- A concrete task launch whose `max_nodes` scalar does not match
`2^(max_depth+1) - 1` (it is `5` while `max_depth = 0` would require `1`), but
whose store geometry satisfies every checked precondition. -/
def exampleMismatchedInput : TaskInput where
  x_dense_row_major := true
  X_shape := ⟨0, 0, 0, 0, 0, 0⟩
  g_shape := ⟨0, 0, 0, 0, 0, 0⟩
  h_shape := ⟨0, 0, 0, 0, 0, 0⟩
  X := fun _ _ => 0
  g := fun _ _ => 1
  h := fun _ _ => 1
  draft := fun _ _ => 0
  max_depth := 0
  max_nodes := 5
  alpha := 0
  split_samples := 1
  seed := 0
  dataset_rows := 1

/-!
## Theorems

General lemmas first, then one theorem (plus witness or counterexample) per
specification claim.
-/

theorem eps_eq : eps = 1 / 1000000000000 := by
  rw [show (1 / 1000000000000 : ℚ) = ((1 : ℤ) : ℚ) / ((1000000000000 : ℕ) : ℚ) by norm_num]
  rw [show ((1 : ℤ) : ℚ) = ((eps.num : ℤ) : ℚ) from rfl]
  rw [show ((1000000000000 : ℕ) : ℚ) = ((eps.den : ℕ) : ℚ) from rfl]
  exact (Rat.num_div_den eps).symm

theorem eps_pos : 0 < eps := by decide

theorem GPair.eq_mk_of (p : GPair) (x y : ℚ) (hg : p.g = x) (hh : p.h = y) : p = ⟨x, y⟩ := by
  cases p
  cases hg
  cases hh
  rfl

/-- Folding `+ f x` over a list accumulates the sum of the mapped list. -/
theorem foldl_add_eq_sum {α M : Type} [AddCommMonoid M] (f : α → M) (l : List α) :
    ∀ a : M, l.foldl (fun s x => s + f x) a = a + (l.map f).sum := by
  induction l with
  | nil => intro a; simp
  | cons x t ih =>
    intro a
    simp only [List.foldl_cons, List.map_cons, List.sum_cons]
    rw [ih (a + f x), add_assoc]

theorem GPair.sum_g (L : List GPair) : L.sum.g = (L.map GPair.g).sum := by
  induction L with
  | nil => rfl
  | cons x t ih => simp only [List.sum_cons, List.map_cons, GPair.add_def, ih]

theorem GPair.sum_h (L : List GPair) : L.sum.h = (L.map GPair.h).sum := by
  induction L with
  | nil => rfl
  | cons x t ih => simp only [List.sum_cons, List.map_cons, GPair.add_def, ih]

/-- Componentwise subtraction distributes over mapped list sums. -/
theorem list_map_sum_sub {α M : Type} [AddCommGroup M] (fA fB : α → M) (l : List α) :
    (l.map (fun x => fA x - fB x)).sum = (l.map fA).sum - (l.map fB).sum := by
  induction l with
  | nil => simp
  | cons x t ih =>
    simp only [List.map_cons, List.sum_cons, ih]
    abel

/-- **C6.** The candidate gain computed by `PerformBestSplit` for node `n`,
bin `b` equals the sum over the outputs of
`0.5 · (G_L²/(H_L+r) + G_R²/(H_R+r) − G²/(H+r))`, where `(G_L, H_L)` is the
histogram-buffer entry at `(n, b, o)`, `(G, H)` are the node totals,
`G_R = G − G_L`, `H_R = H − H_L`, and `r = max(ε, α)`. -/
theorem candidateGain_eq_sum (hist : Hist) (tree : Tree) (no : ℕ) (alpha : ℚ)
    (node_id bin_idx : ℕ) :
    candidateGain hist tree no alpha node_id bin_idx =
      ((List.range no).map (fun o =>
        1 / 2 * ((hist node_id bin_idx o).g * (hist node_id bin_idx o).g /
              ((hist node_id bin_idx o).h + max eps alpha) +
            (tree.gradient node_id o - (hist node_id bin_idx o).g) *
                (tree.gradient node_id o - (hist node_id bin_idx o).g) /
              (tree.hessian node_id o - (hist node_id bin_idx o).h + max eps alpha) -
            tree.gradient node_id o * tree.gradient node_id o /
              (tree.hessian node_id o + max eps alpha)))).sum := by
  unfold candidateGain
  exact (foldl_add_eq_sum _ (List.range no) 0).trans (zero_add _)

/-- Pointwise characterization of `UpdatePositions` on local rows. -/
theorem updatePositions_apply (nr depth : ℕ) (tree : Tree) (X : ℕ → ℕ → ℚ)
    (positions : ℕ → ℤ) (i : ℕ) (hi : i < nr) :
    updatePositions nr depth tree X positions i =
      if depth = 0 then positions i
      else if positions i < 0 ∨ tree.IsLeaf (positions i).toNat then -1
      else if X i (tree.feature (positions i).toNat).toNat ≤
          tree.split_value (positions i).toNat then 2 * positions i + 1
      else 2 * positions i + 2 := by
  unfold updatePositions
  by_cases h0 : depth = 0
  · simp [h0]
  · rw [if_neg h0, if_neg h0]
    show (if nr ≤ i then positions i else _) = _
    rw [if_neg (Nat.not_le.mpr hi)]
    rfl

/-- **C7.** `UpdatePositions(depth)` leaves every position unchanged at depth
0; otherwise a local row whose position is negative or a leaf becomes `-1`,
and any other row moves to `2p+1` when `X[i, feature[p], 0] ≤ split_value[p]`
and to `2p+2` otherwise. -/
theorem updatePositions_eq (nr depth : ℕ) (tree : Tree) (X : ℕ → ℕ → ℚ)
    (positions : ℕ → ℤ) (i : ℕ) (hi : i < nr) :
    updatePositions nr depth tree X positions i =
      if depth = 0 then positions i
      else if positions i < 0 ∨ tree.IsLeaf (positions i).toNat then -1
      else if X i (tree.feature (positions i).toNat).toNat ≤
          tree.split_value (positions i).toNat then 2 * positions i + 1
      else 2 * positions i + 2 :=
  updatePositions_apply nr depth tree X positions i hi

theorem updatePositions_eq_witness :
    updatePositions 1 1 (Tree.init 1) (fun _ _ => 0) (fun _ => 0) 0 = -1 :=
  (updatePositions_eq 1 1 (Tree.init 1) (fun _ _ => 0) (fun _ => 0) 0 (by decide)).trans
    (by decide)

/-- The root accumulation loop of `InitialiseRoot`, componentwise. -/
theorem gpair_foldl_sum (g h : ℕ → ℕ → ℚ) (nr j : ℕ) :
    (List.range nr).foldl (fun s i => s + (⟨g i j, h i j⟩ : GPair)) 0 =
      ⟨((List.range nr).map (fun i => g i j)).sum,
        ((List.range nr).map (fun i => h i j)).sum⟩ := by
  rw [foldl_add_eq_sum (fun i => (⟨g i j, h i j⟩ : GPair)) (List.range nr) 0, zero_add]
  apply GPair.eq_mk_of
  · rw [GPair.sum_g, List.map_map]
    rfl
  · rw [GPair.sum_h, List.map_map]
    rfl

/-- **C8.** With `max_depth = 0` the produced tree is root-only: every node is
a leaf, and the root's gradient, hessian and leaf value are the global sums
`G`, `H` of `g` and `h` and `−G/(H + max(ε, α))`. -/
theorem buildTree_max_depth_zero (P : Params) (hd : P.max_depth = 0) (n o : ℕ)
    (ho : o < P.num_outputs) :
    (buildTree P).feature n = -1 ∧
    (buildTree P).gradient 0 o = ((List.range P.num_rows).map (fun i => P.g i o)).sum ∧
    (buildTree P).hessian 0 o = ((List.range P.num_rows).map (fun i => P.h i o)).sum ∧
    (buildTree P).leaf_value 0 o =
      -((List.range P.num_rows).map (fun i => P.g i o)).sum /
        (((List.range P.num_rows).map (fun i => P.h i o)).sum + max eps P.alpha) := by
  have hb : buildTree P =
      initialiseRoot P.num_rows P.num_outputs P.g P.h P.alpha (Tree.init P.num_outputs) := by
    unfold buildTree
    rw [hd]
    rfl
  rw [hb]
  unfold initialiseRoot
  refine ⟨rfl, ?_, ?_, ?_⟩
  · show (if 0 = 0 ∧ o < P.num_outputs then
        ((List.range P.num_rows).foldl (fun s i => s + (⟨P.g i o, P.h i o⟩ : GPair)) 0).g
      else (Tree.init P.num_outputs).gradient 0 o) = _
    rw [if_pos (And.intro rfl ho), gpair_foldl_sum]
  · show (if 0 = 0 ∧ o < P.num_outputs then
        ((List.range P.num_rows).foldl (fun s i => s + (⟨P.g i o, P.h i o⟩ : GPair)) 0).h
      else (Tree.init P.num_outputs).hessian 0 o) = _
    rw [if_pos (And.intro rfl ho), gpair_foldl_sum]
  · show (if 0 = 0 ∧ o < P.num_outputs then
        CalculateLeafValue
          ((List.range P.num_rows).foldl (fun s i => s + (⟨P.g i o, P.h i o⟩ : GPair)) 0).g
          ((List.range P.num_rows).foldl (fun s i => s + (⟨P.g i o, P.h i o⟩ : GPair)) 0).h
          P.alpha
      else (Tree.init P.num_outputs).leaf_value 0 o) = _
    rw [if_pos (And.intro rfl ho), gpair_foldl_sum]
    rfl

theorem buildTree_max_depth_zero_witness : (buildTree exampleParams0).feature 0 = -1 :=
  (buildTree_max_depth_zero exampleParams0 rfl 0 0 (by decide)).1

/-- **C1, counterexample.** A task launch whose `max_nodes` scalar is
mismatched (`5 ≠ 2^(0+1) − 1`) but which is not aborted: the task runs to
completion and produces its outputs. -/
theorem buildTreeTask_mismatched_max_nodes_cex :
    exampleMismatchedInput.max_nodes ≠ 2 ^ (exampleMismatchedInput.max_depth + 1) - 1 ∧
      producesOutput exampleMismatchedInput = true :=
  ⟨by decide, by decide⟩

/-- **C1, amended.** `build_tree` never validates `max_nodes`: whenever the
geometry checks pass (dense row-major `X`, axis-aligned `g`/`h`,
`g_shape.lo[2] = 0`) the task produces output, whatever the `max_nodes`
scalar. -/
theorem buildTreeTask_ok_of_geometry (inp : TaskInput)
    (h1 : inp.x_dense_row_major = true)
    (h2 : axisAligned0 inp.X_shape inp.g_shape)
    (h3 : axisAligned0 inp.g_shape inp.h_shape)
    (h4 : axisAligned1 inp.g_shape inp.h_shape)
    (h5 : inp.g_shape.lo2 = 0) :
    producesOutput inp = true := by
  simp [producesOutput, buildTreeTask, h1, h2, h3, h4, h5]

theorem buildTreeTask_ok_of_geometry_witness : producesOutput exampleMismatchedInput = true :=
  buildTreeTask_ok_of_geometry exampleMismatchedInput rfl (by decide) (by decide) (by decide)
    rfl

/-- **C4.** A node processed by `PerformBestSplit` whose best gain is at most
`eps`, or whose best candidate has a non-positive left or right hessian at
output 0, is not split: the tree is returned unchanged. -/
theorem performBestSplitNode_no_split (sp : SparseSplitProposals) (nf no : ℕ) (alpha : ℚ)
    (hist : Hist) (tree : Tree) (node_id : ℕ)
    (hskip : (bestSplit sp nf no alpha hist tree node_id).1 ≤ eps ∨
      (hist node_id ((bestSplit sp nf no alpha hist tree node_id).2.2).toNat 0).h ≤ 0 ∨
      tree.hessian node_id 0 -
          (hist node_id ((bestSplit sp nf no alpha hist tree node_id).2.2).toNat 0).h ≤ 0) :
    performBestSplitNode sp nf no alpha hist tree node_id = tree := by
  simp only [performBestSplitNode]
  split_ifs with h1 h2
  · rfl
  · exfalso
    rcases hskip with ha | hb | hc
    · exact absurd h1 (not_lt.mpr ha)
    · exact h2 (Or.inl hb)
    · exact h2 (Or.inr hc)
  · rfl

theorem performBestSplitNode_no_split_witness :
    performBestSplitNode exampleProposals 1 0 0 (fun _ _ _ => 0) (Tree.init 0) 0 =
      Tree.init 0 :=
  performBestSplitNode_no_split exampleProposals 1 0 0 (fun _ _ _ => 0) (Tree.init 0) 0
    (Or.inl (by decide))

theorem insertSorted_mem (x : ℚ) : ∀ (l : List ℚ) (a : ℚ),
    a ∈ insertSorted x l → a = x ∨ a ∈ l := by
  intro l
  induction l with
  | nil =>
    intro a ha
    simp only [insertSorted, List.mem_singleton] at ha
    exact Or.inl ha
  | cons y t ih =>
    intro a ha
    simp only [insertSorted] at ha
    split_ifs at ha with h1 h2
    · rcases List.mem_cons.mp ha with rfl | hbt
      · exact Or.inl rfl
      · exact Or.inr hbt
    · exact Or.inr ha
    · rcases List.mem_cons.mp ha with rfl | hbt
      · exact Or.inr (List.mem_cons_self _ _)
      · rcases ih a hbt with rfl | hat
        · exact Or.inl rfl
        · exact Or.inr (List.mem_cons_of_mem _ hat)

theorem insertSorted_sorted (x : ℚ) : ∀ l : List ℚ,
    l.Sorted (· < ·) → (insertSorted x l).Sorted (· < ·) := by
  intro l
  induction l with
  | nil =>
    intro _
    simp [insertSorted]
  | cons y t ih =>
    intro hl
    rw [List.sorted_cons] at hl
    obtain ⟨hy, ht⟩ := hl
    simp only [insertSorted]
    split_ifs with h1 h2
    · rw [List.sorted_cons]
      refine ⟨?_, ?_⟩
      · intro b hb
        rcases List.mem_cons.mp hb with rfl | hbt
        · exact h1
        · exact lt_trans h1 (hy b hbt)
      · rw [List.sorted_cons]
        exact ⟨hy, ht⟩
    · rw [List.sorted_cons]
      exact ⟨hy, ht⟩
    · have hyx : y < x := lt_of_le_of_ne (not_lt.mp h1) (fun he => h2 he.symm)
      rw [List.sorted_cons]
      refine ⟨?_, ih ht⟩
      intro b hb
      rcases insertSorted_mem x t b hb with rfl | hbt
      · exact hyx
      · exact hy b hbt

theorem foldl_insertSorted_sorted : ∀ l acc : List ℚ, acc.Sorted (· < ·) →
    (l.foldl (fun acc x => insertSorted x acc) acc).Sorted (· < ·) := by
  intro l
  induction l with
  | nil => exact fun acc h => h
  | cons x t ih => exact fun acc h => ih _ (insertSorted_sorted x acc h)

theorem sortedUnique_sorted (l : List ℚ) : (sortedUnique l).Sorted (· < ·) :=
  foldl_insertSorted_sorted l [] (by simp)

theorem featureSamples_sorted (ss : ℕ) (draft : ℕ → ℕ → ℚ) (j : ℕ) :
    (featureSamples ss draft j).Sorted (· < ·) :=
  sortedUnique_sorted _

theorem thresholdOffset_succ (ss : ℕ) (draft : ℕ → ℕ → ℚ) (j : ℕ) :
    thresholdOffset ss draft (j + 1) =
      thresholdOffset ss draft j + (featureSamples ss draft j).length := by
  unfold thresholdOffset
  rw [List.range_succ, List.map_append, List.sum_append]
  simp

theorem ssp_row_pointers_length (nf ss : ℕ) (draft : ℕ → ℕ → ℚ) :
    (SelectSplitSamples nf ss draft).row_pointers.length = nf + 1 := by
  simp [SelectSplitSamples]

theorem ssp_rowPtr (nf ss : ℕ) (draft : ℕ → ℕ → ℚ) (j : ℕ) (hj : j < nf + 1) :
    (SelectSplitSamples nf ss draft).rowPtr j = thresholdOffset ss draft j := by
  unfold SparseSplitProposals.rowPtr
  show ((List.range (nf + 1)).map (thresholdOffset ss draft)).getD j 0 = _
  rw [List.getD_eq_getElem _ _ (by simpa using hj), List.getElem_map, List.getElem_range]

theorem drop_flatMap_featureSamples (ss : ℕ) (draft : ℕ → ℕ → ℚ) (nf : ℕ) :
    ∀ f, f ≤ nf →
      ((List.range nf).flatMap (featureSamples ss draft)).drop (thresholdOffset ss draft f) =
        (List.range' f (nf - f)).flatMap (featureSamples ss draft) := by
  intro f
  induction f with
  | zero =>
    intro _
    simp [thresholdOffset, List.range_eq_range']
  | succ f ih =>
    intro hf
    rw [thresholdOffset_succ, ← List.drop_drop, ih (Nat.le_of_succ_le hf)]
    have h1 : nf - f = (nf - (f + 1)) + 1 := by omega
    rw [h1, List.range'_succ, List.flatMap_cons, List.drop_left]

theorem props_getD (nf ss : ℕ) (draft : ℕ → ℕ → ℚ) (f k : ℕ) (hf : f < nf)
    (hk : k < (featureSamples ss draft f).length) :
    ((List.range nf).flatMap (featureSamples ss draft)).getD
        (thresholdOffset ss draft f + k) 0 =
      (featureSamples ss draft f).getD k 0 := by
  have hdrop := drop_flatMap_featureSamples ss draft nf f (Nat.le_of_lt hf)
  have h1 : nf - f = (nf - (f + 1)) + 1 := by omega
  rw [h1, List.range'_succ, List.flatMap_cons] at hdrop
  rw [List.getD_eq_getElem?_getD, List.getD_eq_getElem?_getD, ← List.getElem?_drop, hdrop,
    List.getElem?_append_left hk]

theorem sorted_getD_lt (l : List ℚ) (hs : l.Sorted (· < ·)) (k1 k2 : ℕ) (h12 : k1 < k2)
    (hk2 : k2 < l.length) : l.getD k1 0 < l.getD k2 0 := by
  have hk1 : k1 < l.length := lt_trans h12 hk2
  rw [List.getD_eq_getElem _ _ hk1, List.getD_eq_getElem _ _ hk2]
  exact List.pairwise_iff_getElem.mp hs k1 k2 hk1 hk2 h12

/-- **C9.** The `SparseSplitProposals` returned by `SelectSplitSamples`
satisfies `row_pointers[0] = 0`, `row_pointers` is non-decreasing, and the
thresholds within each feature's range `[row_pointers[f], row_pointers[f+1])`
are strictly increasing — for every possible reduced draft buffer. -/
theorem selectSplitSamples_invariant (nf ss : ℕ) (draft : ℕ → ℕ → ℚ) :
    (SelectSplitSamples nf ss draft).rowPtr 0 = 0 ∧
    (∀ j, j + 1 < (SelectSplitSamples nf ss draft).row_pointers.length →
      (SelectSplitSamples nf ss draft).rowPtr j ≤
        (SelectSplitSamples nf ss draft).rowPtr (j + 1)) ∧
    (∀ f, f < nf → ∀ b1 b2 : ℕ,
      (SelectSplitSamples nf ss draft).rowPtr f ≤ b1 → b1 < b2 →
      b2 < (SelectSplitSamples nf ss draft).rowPtr (f + 1) →
      (SelectSplitSamples nf ss draft).split_proposals.getD b1 0 <
        (SelectSplitSamples nf ss draft).split_proposals.getD b2 0) := by
  refine ⟨?_, ?_, ?_⟩
  · rw [ssp_rowPtr nf ss draft 0 (Nat.succ_pos nf)]
    rfl
  · intro j hj
    rw [ssp_row_pointers_length] at hj
    rw [ssp_rowPtr nf ss draft j (by omega), ssp_rowPtr nf ss draft (j + 1) (by omega),
      thresholdOffset_succ]
    exact Nat.le_add_right _ _
  · intro f hf b1 b2 hb1 h12 hb2
    rw [ssp_rowPtr nf ss draft f (by omega)] at hb1
    rw [ssp_rowPtr nf ss draft (f + 1) (by omega), thresholdOffset_succ] at hb2
    obtain ⟨k1, rfl⟩ : ∃ k1, b1 = thresholdOffset ss draft f + k1 :=
      ⟨b1 - thresholdOffset ss draft f, by omega⟩
    obtain ⟨k2, rfl⟩ : ∃ k2, b2 = thresholdOffset ss draft f + k2 :=
      ⟨b2 - thresholdOffset ss draft f, by omega⟩
    have hk2 : k2 < (featureSamples ss draft f).length := by omega
    have hk12 : k1 < k2 := by omega
    show ((List.range nf).flatMap (featureSamples ss draft)).getD _ 0 <
      ((List.range nf).flatMap (featureSamples ss draft)).getD _ 0
    rw [props_getD nf ss draft f k1 hf (lt_trans hk12 hk2), props_getD nf ss draft f k2 hf hk2]
    exact sorted_getD_lt _ (featureSamples_sorted ss draft f) k1 k2 hk12 hk2

theorem addSplit_TreeInv (t : Tree) (node_id : ℕ) (fid : ℤ) (sv : ℚ) (ll rl : ℕ → ℚ)
    (gn : ℚ) (gl gr hl hr : ℕ → ℚ) (ht : TreeInv t) (hno : 0 < t.num_outputs)
    (hg : eps < gn) (hhl : 0 < hl 0) (hhr : 0 < hr 0) :
    TreeInv (t.AddSplit node_id fid sv ll rl gn gl gr hl hr) := by
  intro n hn
  by_cases hcase : n = node_id
  · subst hcase
    refine ⟨?_, ?_, ?_⟩
    · simp only [Tree.AddSplit, if_true]
      exact hg
    · simp only [Tree.AddSplit, if_true]
      rw [if_pos hno]
      exact hhl
    · simp only [Tree.AddSplit, if_true]
      have hne : BinaryTree.RightChild n ≠ BinaryTree.LeftChild n := by
        unfold BinaryTree.LeftChild BinaryTree.RightChild
        omega
      rw [if_pos hno, if_neg hne]
      exact hhr
  · have hfeat : t.feature n ≠ -1 := by
      simp only [Tree.AddSplit] at hn
      rwa [if_neg hcase] at hn
    obtain ⟨h1, h2, h3⟩ := ht n hfeat
    refine ⟨?_, ?_, ?_⟩
    · simp only [Tree.AddSplit]
      rwa [if_neg hcase]
    · simp only [Tree.AddSplit]
      have e1 : BinaryTree.LeftChild n ≠ BinaryTree.LeftChild node_id := by
        unfold BinaryTree.LeftChild
        omega
      have e2 : BinaryTree.LeftChild n ≠ BinaryTree.RightChild node_id := by
        unfold BinaryTree.LeftChild BinaryTree.RightChild
        omega
      by_cases ho : 0 < t.num_outputs
      · rw [if_pos ho, if_neg e1, if_neg e2]
        exact h2
      · rw [if_neg ho]
        exact h2
    · simp only [Tree.AddSplit]
      have e1 : BinaryTree.RightChild n ≠ BinaryTree.LeftChild node_id := by
        unfold BinaryTree.LeftChild BinaryTree.RightChild
        omega
      have e2 : BinaryTree.RightChild n ≠ BinaryTree.RightChild node_id := by
        unfold BinaryTree.RightChild
        omega
      by_cases ho : 0 < t.num_outputs
      · rw [if_pos ho, if_neg e1, if_neg e2]
        exact h3
      · rw [if_neg ho]
        exact h3

theorem candidateGain_output_zero (hist : Hist) (tree : Tree) (alpha : ℚ)
    (node_id bin_idx : ℕ) : candidateGain hist tree 0 alpha node_id bin_idx = 0 := rfl

theorem bestSplit_output_zero (sp : SparseSplitProposals) (nf : ℕ) (alpha : ℚ) (hist : Hist)
    (tree : Tree) (node_id : ℕ) :
    bestSplit sp nf 0 alpha hist tree node_id = (0, -1, -1) := by
  unfold bestSplit
  generalize candList sp nf = l
  induction l with
  | nil => rfl
  | cons c t ih =>
    rw [List.foldl_cons]
    have hc : (if candidateGain hist tree 0 alpha node_id c.2 > (0, -1, -1).1 then
          (candidateGain hist tree 0 alpha node_id c.2, (c.1 : ℤ), (c.2 : ℤ))
        else ((0 : ℚ), (-1 : ℤ), (-1 : ℤ))) = ((0 : ℚ), (-1 : ℤ), (-1 : ℤ)) :=
      if_neg (lt_irrefl 0)
    rw [hc]
    exact ih

theorem performBestSplitNode_num_outputs (sp : SparseSplitProposals) (nf no : ℕ) (alpha : ℚ)
    (hist : Hist) (t : Tree) (node_id : ℕ) :
    (performBestSplitNode sp nf no alpha hist t node_id).num_outputs = t.num_outputs := by
  simp only [performBestSplitNode]
  split_ifs <;> rfl

theorem performBestSplitNode_TreeInv (sp : SparseSplitProposals) (nf no : ℕ) (alpha : ℚ)
    (hist : Hist) (t : Tree) (node_id : ℕ) (ht : TreeInv t) (hno : t.num_outputs = no) :
    TreeInv (performBestSplitNode sp nf no alpha hist t node_id) := by
  simp only [performBestSplitNode]
  split_ifs with h1 h2
  · exact ht
  · push_neg at h2
    have hno0 : 0 < t.num_outputs := by
      rcases Nat.eq_zero_or_pos no with h | h
      · subst h
        rw [bestSplit_output_zero] at h1
        exact absurd h1 (not_lt.mpr (le_of_lt eps_pos))
      · rwa [hno]
    exact addSplit_TreeInv t node_id _ _ _ _ _ _ _ _ _ ht hno0 h1 h2.1 h2.2
  · exact ht

theorem performBestSplit_foldl_TreeInv (sp : SparseSplitProposals) (nf no : ℕ) (alpha : ℚ)
    (hist : Hist) : ∀ (l : List ℕ) (t : Tree), TreeInv t → t.num_outputs = no →
      TreeInv (l.foldl (performBestSplitNode sp nf no alpha hist) t) ∧
        (l.foldl (performBestSplitNode sp nf no alpha hist) t).num_outputs = no := by
  intro l
  induction l with
  | nil => exact fun t ht hno => ⟨ht, hno⟩
  | cons nid rest ih =>
    intro t ht hno
    rw [List.foldl_cons]
    apply ih
    · exact performBestSplitNode_TreeInv sp nf no alpha hist t nid ht hno
    · rw [performBestSplitNode_num_outputs]
      exact hno

theorem stateAt_tree_TreeInv (P : Params) : ∀ d,
    TreeInv (stateAt P d).tree ∧ (stateAt P d).tree.num_outputs = P.num_outputs := by
  intro d
  induction d with
  | zero =>
    constructor
    · intro n hn
      exact absurd rfl hn
    · rfl
  | succ d ih =>
    exact performBestSplit_foldl_TreeInv P.sp P.num_features P.num_outputs P.alpha _ _
      (stateAt P d).tree ih.1 ih.2

/-- **C3.** Every tree produced by `build_tree` satisfies: an internal node
`n` (`feature[n] ≠ -1`) has `gain[n] > ε` and positive left- and right-child
hessians at output 0. -/
theorem buildTree_internal_invariant (P : Params) : TreeInv (buildTree P) :=
  (stateAt_tree_TreeInv P P.max_depth).1

theorem candList_mem (sp : SparseSplitProposals) (nf : ℕ) (c : ℕ × ℕ)
    (hc : c ∈ candList sp nf) : c.1 < nf := by
  unfold candList at hc
  rw [List.mem_flatMap] at hc
  obtain ⟨f, hf, hcf⟩ := hc
  rw [List.mem_map] at hcf
  obtain ⟨b, _, rfl⟩ := hcf
  simpa using List.mem_range.mp hf

theorem candList_pairwise (sp : SparseSplitProposals) : ∀ nf, (candList sp nf).Pairwise lexLtPair := by
  intro nf
  induction nf with
  | zero => simp [candList]
  | succ nf ih =>
    unfold candList
    rw [List.range_succ, List.flatMap_append, List.pairwise_append]
    refine ⟨ih, ?_, ?_⟩
    · simp only [List.flatMap_cons, List.flatMap_nil, List.append_nil]
      exact List.Pairwise.map _ (fun a b hab => Or.inr ⟨rfl, hab⟩) (List.pairwise_lt_range' _ _)
    · intro a ha b hb
      have ha1 : a.1 < nf := candList_mem sp nf a ha
      simp only [List.flatMap_cons, List.flatMap_nil, List.append_nil, List.mem_map] at hb
      obtain ⟨bb, _, rfl⟩ := hb
      exact Or.inl ha1

/-- The strict-improvement fold of the best-split search over a
lexicographically sorted candidate list: either nothing ever beat the
accumulator, or the result is the first candidate attaining the maximum
gain. -/
theorem bestFoldSpec (gainOf : ℕ × ℕ → ℚ) :
    ∀ l : List (ℕ × ℕ), l.Pairwise lexLtPair → ∀ acc : ℚ × ℤ × ℤ,
      (l.foldl (fun best c => if gainOf c > best.1 then (gainOf c, (c.1 : ℤ), (c.2 : ℤ))
          else best) acc = acc ∧ ∀ c ∈ l, gainOf c ≤ acc.1) ∨
      (∃ c, c ∈ l ∧
        l.foldl (fun best c => if gainOf c > best.1 then (gainOf c, (c.1 : ℤ), (c.2 : ℤ))
          else best) acc = (gainOf c, (c.1 : ℤ), (c.2 : ℤ)) ∧
        acc.1 < gainOf c ∧
        ∀ c' ∈ l, gainOf c' ≤ gainOf c ∧ (gainOf c' = gainOf c → lexLePair c c')) := by
  intro l
  induction l with
  | nil =>
    intro _ acc
    exact Or.inl ⟨rfl, by simp⟩
  | cons a t ih =>
    intro hpw acc
    rw [List.pairwise_cons] at hpw
    obtain ⟨ha, ht⟩ := hpw
    rw [List.foldl_cons]
    by_cases hga : gainOf a > acc.1
    · rw [if_pos hga]
      rcases ih ht (gainOf a, (a.1 : ℤ), (a.2 : ℤ)) with ⟨heq, hle⟩ | ⟨c, hc, heq, hlt, hall⟩
      · right
        refine ⟨a, List.mem_cons_self _ _, heq, hga, ?_⟩
        intro c' hc'
        rcases List.mem_cons.mp hc' with rfl | hct
        · exact ⟨le_refl _, fun _ => Or.inr ⟨rfl, le_refl _⟩⟩
        · refine ⟨hle c' hct, fun _ => ?_⟩
          rcases ha c' hct with h | h
          · exact Or.inl h
          · exact Or.inr ⟨h.1, le_of_lt h.2⟩
      · right
        refine ⟨c, List.mem_cons_of_mem _ hc, heq, lt_trans hga hlt, ?_⟩
        intro c' hc'
        rcases List.mem_cons.mp hc' with rfl | hct
        · exact ⟨le_of_lt hlt, fun he => absurd he (ne_of_lt hlt)⟩
        · exact hall c' hct
    · rw [if_neg hga]
      rcases ih ht acc with ⟨heq, hle⟩ | ⟨c, hc, heq, hlt, hall⟩
      · left
        refine ⟨heq, ?_⟩
        intro c' hc'
        rcases List.mem_cons.mp hc' with rfl | hct
        · exact not_lt.mp hga
        · exact hle c' hct
      · right
        refine ⟨c, List.mem_cons_of_mem _ hc, heq, hlt, ?_⟩
        intro c' hc'
        rcases List.mem_cons.mp hc' with rfl | hct
        · exact ⟨le_of_lt (lt_of_le_of_lt (not_lt.mp hga) hlt),
            fun he => absurd he (ne_of_lt (lt_of_le_of_lt (not_lt.mp hga) hlt))⟩
        · exact hall c' hct

/-- **C5.** The best-split search starts from gain 0, replaces the best
candidate only on strictly greater gain, and enumerates candidates in
increasing `(feature, bin)` order; hence either no candidate has positive gain
(and `(best_feature, best_bin)` stays `(-1, -1)`), or the selected candidate
attains the maximum gain and precedes (lexicographically, feature first) every
other candidate of equal gain. -/
theorem bestSplit_first_of_max (sp : SparseSplitProposals) (nf no : ℕ) (alpha : ℚ)
    (hist : Hist) (tree : Tree) (node_id : ℕ) :
    (bestSplit sp nf no alpha hist tree node_id = (0, -1, -1) ∧
      ∀ c ∈ candList sp nf, candidateGain hist tree no alpha node_id c.2 ≤ 0) ∨
    (∃ c, c ∈ candList sp nf ∧
      bestSplit sp nf no alpha hist tree node_id =
        (candidateGain hist tree no alpha node_id c.2, (c.1 : ℤ), (c.2 : ℤ)) ∧
      0 < candidateGain hist tree no alpha node_id c.2 ∧
      ∀ c' ∈ candList sp nf,
        candidateGain hist tree no alpha node_id c'.2 ≤
          candidateGain hist tree no alpha node_id c.2 ∧
        (candidateGain hist tree no alpha node_id c'.2 =
            candidateGain hist tree no alpha node_id c.2 → lexLePair c c')) :=
  bestFoldSpec (fun c => candidateGain hist tree no alpha node_id c.2) (candList sp nf)
    (candList_pairwise sp nf) (0, -1, -1)

theorem selectSplitSamples_invariant_witness :
    (SelectSplitSamples 1 2 exampleDraft).rowPtr 0 = 0 ∧
      (SelectSplitSamples 1 2 exampleDraft).split_proposals.getD 0 0 <
        (SelectSplitSamples 1 2 exampleDraft).split_proposals.getD 1 0 :=
  ⟨(selectSplitSamples_invariant 1 2 exampleDraft).1,
    (selectSplitSamples_invariant 1 2 exampleDraft).2.2 0 (by decide) 0 1 (by decide)
      (by decide) (by decide)⟩

theorem posAfterUpdate_zero_eq (P : Params) : posAfterUpdate P 0 = (stateAt P 0).positions := by
  unfold posAfterUpdate updatePositions
  rw [if_pos rfl]

/-- After `UpdatePositions(d)`, every local row position is `-1` or a node of
level `d`: the interval `[2^d − 1, 2^(d+1) − 1)`. -/
theorem posAfterUpdate_level (P : Params) : ∀ d i, i < P.num_rows →
    posAfterUpdate P d i = -1 ∨
      ((2 : ℤ) ^ d - 1 ≤ posAfterUpdate P d i ∧ posAfterUpdate P d i < 2 ^ (d + 1) - 1) := by
  intro d
  induction d with
  | zero =>
    intro i _
    rw [posAfterUpdate_zero_eq]
    right
    show (2 : ℤ) ^ 0 - 1 ≤ 0 ∧ (0 : ℤ) < 2 ^ (0 + 1) - 1
    norm_num
  | succ d ih =>
    intro i hi
    have he := updatePositions_apply P.num_rows (d + 1) (stateAt P (d + 1)).tree P.X
      (stateAt P (d + 1)).positions i hi
    rw [if_neg (Nat.succ_ne_zero d)] at he
    unfold posAfterUpdate
    rw [he]
    by_cases hneg : (stateAt P (d + 1)).positions i < 0 ∨
        (stateAt P (d + 1)).tree.IsLeaf ((stateAt P (d + 1)).positions i).toNat
    · rw [if_pos hneg]
      exact Or.inl rfl
    · rw [if_neg hneg]
      have hp0 : ¬((stateAt P (d + 1)).positions i < 0) := fun h => hneg (Or.inl h)
      have hprev : (stateAt P (d + 1)).positions i = -1 ∨
          ((2 : ℤ) ^ d - 1 ≤ (stateAt P (d + 1)).positions i ∧
            (stateAt P (d + 1)).positions i < 2 ^ (d + 1) - 1) := ih i hi
      have hb : (2 : ℤ) ^ d - 1 ≤ (stateAt P (d + 1)).positions i ∧
          (stateAt P (d + 1)).positions i < 2 ^ (d + 1) - 1 := by
        rcases hprev with h | h
        · rw [h] at hp0
          norm_num at hp0
        · exact h
      have h2 : (2 : ℤ) ^ (d + 1) = 2 * 2 ^ d := by ring
      have h3 : (2 : ℤ) ^ (d + 1 + 1) = 4 * 2 ^ d := by ring
      by_cases hx : P.X i (((stateAt P (d + 1)).tree.feature
            ((stateAt P (d + 1)).positions i).toNat).toNat) ≤
          (stateAt P (d + 1)).tree.split_value ((stateAt P (d + 1)).positions i).toNat
      · rw [if_pos hx]
        right
        constructor
        · rw [h2]
          linarith [hb.1]
        · rw [h3]
          rw [h2] at hb
          linarith [hb.2]
      · rw [if_neg hx]
        right
        constructor
        · rw [h2]
          linarith [hb.1]
        · rw [h3]
          rw [h2] at hb
          linarith [hb.2]

/-- **C10.** At every depth `d` reached by the level loop, right after
`UpdatePositions(d)`, every local row position is either `-1` or a node index
of level `d`, i.e. lies in `[2^d − 1, 2^(d+1) − 1)`. -/
theorem positions_in_level (P : Params) (d i : ℕ) (hd : d < P.max_depth)
    (hi : i < P.num_rows) :
    posAfterUpdate P d i = -1 ∨
      ((2 : ℤ) ^ d - 1 ≤ posAfterUpdate P d i ∧ posAfterUpdate P d i < 2 ^ (d + 1) - 1) :=
  posAfterUpdate_level P d i hi

theorem positions_in_level_witness :
    posAfterUpdate exampleParams1 0 0 = -1 ∨
      ((2 : ℤ) ^ 0 - 1 ≤ posAfterUpdate exampleParams1 0 0 ∧
        posAfterUpdate exampleParams1 0 0 < 2 ^ (0 + 1) - 1) :=
  positions_in_level exampleParams1 0 0 (by decide) (by decide)

theorem scanStep_add (o x : ℕ) (a1 a2 : GPair × HistRow) :
    scanStep o (a1.1 + a2.1, fun b' o' => a1.2 b' o' + a2.2 b' o') x =
      ((scanStep o a1 x).1 + (scanStep o a2 x).1,
        fun b' o' => (scanStep o a1 x).2 b' o' + (scanStep o a2 x).2 b' o') := by
  unfold scanStep
  refine Prod.ext ?_ ?_
  · show (a1.1 + a2.1) + (a1.2 x o + a2.2 x o) = (a1.1 + a1.2 x o) + (a2.1 + a2.2 x o)
    abel
  · funext b' o'
    show (if b' = x ∧ o' = o then (a1.1 + a2.1) + (a1.2 x o + a2.2 x o)
        else a1.2 b' o' + a2.2 b' o') = _
    by_cases hc : b' = x ∧ o' = o
    · rw [if_pos hc]
      show _ = (if b' = x ∧ o' = o then a1.1 + a1.2 x o else a1.2 b' o') +
        (if b' = x ∧ o' = o then a2.1 + a2.2 x o else a2.2 b' o')
      rw [if_pos hc, if_pos hc]
      abel
    · rw [if_neg hc]
      show _ = (if b' = x ∧ o' = o then a1.1 + a1.2 x o else a1.2 b' o') +
        (if b' = x ∧ o' = o then a2.1 + a2.2 x o else a2.2 b' o')
      rw [if_neg hc, if_neg hc]

theorem scanFeatureOutput_add (fb len o : ℕ) (r1 r2 : HistRow) :
    scanFeatureOutput fb len o (fun b o' => r1 b o' + r2 b o') =
      fun b o' => scanFeatureOutput fb len o r1 b o' + scanFeatureOutput fb len o r2 b o' := by
  have key : ∀ (l : List ℕ) (a1 a2 : GPair × HistRow),
      l.foldl (scanStep o) (a1.1 + a2.1, fun b' o' => a1.2 b' o' + a2.2 b' o') =
        ((l.foldl (scanStep o) a1).1 + (l.foldl (scanStep o) a2).1,
          fun b' o' => (l.foldl (scanStep o) a1).2 b' o' + (l.foldl (scanStep o) a2).2 b' o') := by
    intro l
    induction l with
    | nil => intro a1 a2; rfl
    | cons x t ih =>
      intro a1 a2
      rw [List.foldl_cons, scanStep_add, ih (scanStep o a1 x) (scanStep o a2 x),
        List.foldl_cons, List.foldl_cons]
  unfold scanFeatureOutput
  have e0 : (((0 : GPair), fun b o' => r1 b o' + r2 b o') : GPair × HistRow) =
      (((0, r1) : GPair × HistRow).1 + ((0, r2) : GPair × HistRow).1,
        fun b' o' => ((0, r1) : GPair × HistRow).2 b' o' + ((0, r2) : GPair × HistRow).2 b' o') := by
    refine Prod.ext ?_ rfl
    show (0 : GPair) = 0 + 0
    rw [add_zero]
  rw [e0, key]

/-- A fold of pointwise-additive histogram-row transformations is
pointwise-additive. -/
theorem foldl_additive (step : HistRow → ℕ → HistRow)
    (hstep : ∀ (x : ℕ) (r1 r2 : HistRow),
      step (fun b o => r1 b o + r2 b o) x = fun b o => step r1 x b o + step r2 x b o) :
    ∀ (l : List ℕ) (r1 r2 : HistRow),
      l.foldl step (fun b o => r1 b o + r2 b o) =
        fun b o => l.foldl step r1 b o + l.foldl step r2 b o := by
  intro l
  induction l with
  | nil => intro r1 r2; rfl
  | cons x t ih =>
    intro r1 r2
    rw [List.foldl_cons, hstep, ih (step r1 x) (step r2 x), List.foldl_cons, List.foldl_cons]

theorem scanFeature_add (fb len no : ℕ) (r1 r2 : HistRow) :
    scanFeature fb len no (fun b o => r1 b o + r2 b o) =
      fun b o => scanFeature fb len no r1 b o + scanFeature fb len no r2 b o := by
  unfold scanFeature
  exact foldl_additive (fun row o => scanFeatureOutput fb len o row)
    (fun o s1 s2 => scanFeatureOutput_add fb len o s1 s2) (List.range no) r1 r2

theorem scanNodeRow_add (sp : SparseSplitProposals) (nf no : ℕ) (r1 r2 : HistRow) :
    scanNodeRow sp nf no (fun b o => r1 b o + r2 b o) =
      fun b o => scanNodeRow sp nf no r1 b o + scanNodeRow sp nf no r2 b o := by
  unfold scanNodeRow
  exact foldl_additive
    (fun row f =>
      scanFeature (sp.FeatureRange f).1 ((sp.FeatureRange f).2 - (sp.FeatureRange f).1) no row)
    (fun f s1 s2 =>
      scanFeature_add (sp.FeatureRange f).1 ((sp.FeatureRange f).2 - (sp.FeatureRange f).1) no
        s1 s2)
    (List.range nf) r1 r2

/-- One `ComputeHistogram` row pass only ever adds to the buffer: its result
at a cell is the incoming value plus the row's own contribution. -/
theorem rowAccum_shift (sp : SparseSplitProposals) (no : ℕ) (X g h : ℕ → ℕ → ℚ) (i : ℕ) :
    ∀ (l : List ℕ) (hr : HistRow) (b o : ℕ),
      (l.foldl (fun hr j =>
          match sp.FindBin (X i j) j with
          | none => hr
          | some bin_idx =>
            fun b k => if b = bin_idx ∧ k < no then hr b k + ⟨g i k, h i k⟩ else hr b k) hr) b o =
        hr b o +
          (l.foldl (fun hr j =>
            match sp.FindBin (X i j) j with
            | none => hr
            | some bin_idx =>
              fun b k => if b = bin_idx ∧ k < no then hr b k + ⟨g i k, h i k⟩ else hr b k)
            (fun _ _ => 0)) b o := by
  intro l
  induction l with
  | nil =>
    intro hr b o
    show hr b o = hr b o + (0 : GPair)
    rw [add_zero]
  | cons j t ih =>
    intro hr b o
    rw [List.foldl_cons, List.foldl_cons]
    cases hfb : sp.FindBin (X i j) j with
    | none =>
      simp only [hfb]
      exact ih hr b o
    | some bin_idx =>
      simp only [hfb]
      rw [ih (fun b k => if b = bin_idx ∧ k < no then hr b k + ⟨g i k, h i k⟩ else hr b k) b o,
        ih (fun b k => if b = bin_idx ∧ k < no then 0 + (⟨g i k, h i k⟩ : GPair) else 0) b o]
      by_cases hc : b = bin_idx ∧ o < no
      · rw [if_pos hc, if_pos hc]
        abel
      · rw [if_neg hc, if_neg hc]
        abel

/-- The row loop of `ComputeHistogram` only ever adds: folding a list of rows
into a buffer cell yields the incoming value plus the rows' own histogram. -/
theorem nodeHistogram_shift (sp : SparseSplitProposals) (nf no : ℕ) (X g h : ℕ → ℕ → ℚ) :
    ∀ (rows : List ℕ) (hr : HistRow) (b o : ℕ),
      (rows.foldl (fun hr i => rowAccum sp nf no X g h i hr) hr) b o =
        hr b o + nodeHistogram sp nf no X g h rows b o := by
  intro rows
  induction rows with
  | nil =>
    intro hr b o
    show hr b o = hr b o + (0 : GPair)
    rw [add_zero]
  | cons i t ih =>
    intro hr b o
    show (t.foldl _ (rowAccum sp nf no X g h i hr)) b o = _
    rw [ih]
    have hstep : rowAccum sp nf no X g h i hr b o =
        hr b o + rowAccum sp nf no X g h i (fun _ _ => 0) b o :=
      rowAccum_shift sp no X g h i (List.range nf) hr b o
    rw [hstep, add_assoc]
    show _ = hr b o + (t.foldl _ (rowAccum sp nf no X g h i (fun _ _ => 0))) b o
    rw [ih]

/-- Histograms are additive over row partitions: the raw histogram of the
concatenation of two row lists is the cellwise sum of their histograms. -/
theorem nodeHistogram_append (sp : SparseSplitProposals) (nf no : ℕ) (X g h : ℕ → ℕ → ℚ)
    (rowsB rowsS : List ℕ) (b o : ℕ) :
    nodeHistogram sp nf no X g h (rowsB ++ rowsS) b o =
      nodeHistogram sp nf no X g h rowsB b o + nodeHistogram sp nf no X g h rowsS b o := by
  unfold nodeHistogram
  rw [List.foldl_append]
  exact nodeHistogram_shift sp nf no X g h rowsS _ b o

/-- Subtracting the scanned histogram of one part of a row partition from the
scanned histogram of the whole recovers the scanned histogram of the other
part, at every cell. -/
theorem scanNodeRow_partition_sub (sp : SparseSplitProposals) (nf no : ℕ)
    (X g h : ℕ → ℕ → ℚ) (rowsB rowsS : List ℕ) (b o : ℕ) :
    scanNodeRow sp nf no (nodeHistogram sp nf no X g h (rowsB ++ rowsS)) b o -
      scanNodeRow sp nf no (nodeHistogram sp nf no X g h rowsB) b o =
      scanNodeRow sp nf no (nodeHistogram sp nf no X g h rowsS) b o := by
  have hadd : nodeHistogram sp nf no X g h (rowsB ++ rowsS) =
      fun b o =>
        nodeHistogram sp nf no X g h rowsB b o + nodeHistogram sp nf no X g h rowsS b o :=
    funext fun b => funext fun o => nodeHistogram_append sp nf no X g h rowsB rowsS b o
  rw [hadd, scanNodeRow_add]
  exact add_sub_cancel_left _ _

/-- **C2.** In a `Scan` subtraction step whose parent slice holds the scanned
histogram of the parent's rows (the built child's rows followed by the
sibling's rows) and whose directly-built slice holds the scanned histogram of
the built child's own rows, the sibling-derived entry `parent − scanned`
equals, bin for bin and output for output, the scanned histogram the sibling
would obtain by accumulating its own rows directly — histograms are additive
over the row partition. -/
theorem scan_subtract_sibling (sp : SparseSplitProposals) (nf no : ℕ)
    (X g h : ℕ → ℕ → ℚ) (rowsB rowsS : List ℕ) (hist : Hist)
    (parent_id hn_id sub_id : ℕ)
    (hparent : ∀ b o, hist parent_id b o =
      scanNodeRow sp nf no (nodeHistogram sp nf no X g h (rowsB ++ rowsS)) b o)
    (hbuilt : ∀ b o, hist hn_id b o =
      scanNodeRow sp nf no (nodeHistogram sp nf no X g h rowsB) b o)
    (b o : ℕ) (hb : inAnyRange sp nf b = true) (ho : o < no) :
    subtractNodeAt sp nf no hist sub_id hn_id parent_id sub_id b o =
      scanNodeRow sp nf no (nodeHistogram sp nf no X g h rowsS) b o := by
  unfold subtractNodeAt
  rw [if_pos (And.intro rfl (And.intro hb ho)), hparent b o, hbuilt b o]
  exact scanNodeRow_partition_sub sp nf no X g h rowsB rowsS b o

theorem scan_subtract_sibling_witness :
    subtractNodeAt exampleProposals 1 1 exampleSiblingHist 2 1 0 2 0 0 =
      scanNodeRow exampleProposals 1 1
        (nodeHistogram exampleProposals 1 1 (fun _ _ => 0) (fun _ _ => 1) (fun _ _ => 1)
          [1]) 0 0 :=
  scan_subtract_sibling exampleProposals 1 1 (fun _ _ => 0) (fun _ _ => 1) (fun _ _ => 1)
    [0] [1] exampleSiblingHist 0 1 2 (fun _ _ => rfl) (fun _ _ => rfl) 0 0 (by decide)
    (by decide)

end LB
